import Mathlib

/-!
Verification of the concern-fusion core of the Beauty-Commerce backend.

The definitions below are a shallow embedding of the Python functions in
`Backend/AI_Comb_Models_Logicals.py` and
`Backend/Test_Scripts/Combined_Predict.py`.  Probabilities (Python floats)
are modelled as rationals; Python dicts (which preserve insertion order and
have unique keys) are modelled as association lists updated in place.
-/

namespace Beauty

/-- Lookup in an insertion-ordered dict modelled as an association list:
`m.find?` on the key, as in Python `m.get(k)` / `m[k]`. -/
def assocFind {β : Type} (m : List (String × β)) (k : String) : Option β :=
  (m.find? (fun kv => kv.1 == k)).map Prod.snd

/-- Update of an insertion-ordered dict: `m[k] = v` in Python replaces the
value in place when `k` is present and appends `(k, v)` otherwise. -/
def assocSet {β : Type} (m : List (String × β)) (k : String) (v : β) : List (String × β) :=
  match m with
  | [] => [(k, v)]
  | kv :: rest => if kv.1 == k then (k, v) :: rest else kv :: assocSet rest k v

/-- Python `prob_map.get(k, 0.0)`. -/
def probGetD (m : List (String × ℚ)) (k : String) : ℚ :=
  (assocFind m k).getD 0

/-- Descending-by-probability order used by the tiering lists:
`sort(key=lambda x: x["prob"], reverse=True)`. -/
def probGE (a b : String × ℚ) : Prop := b.2 ≤ a.2

instance : DecidableRel probGE := fun a b => inferInstanceAs (Decidable (b.2 ≤ a.2))

instance : IsTotal (String × ℚ) probGE := ⟨fun a b => le_total b.2 a.2⟩

instance : IsTrans (String × ℚ) probGE := ⟨fun _ _ _ h1 h2 => le_trans h2 h1⟩

/-- Python's stable `list.sort(key=lambda x: x["prob"], reverse=True)`,
modelled as a stable insertion sort by descending probability. -/
def sortDesc (l : List (String × ℚ)) : List (String × ℚ) :=
  l.insertionSort probGE

/-- The `LESION_TO_CONCERN` table of `AI_Comb_Models_Logicals.py`:
lesion label → Beauticulture concern name, `none` for the Python `None`
entry ("Do not consider this image"). -/
def LESION_TO_CONCERN : List (String × Option String) :=
  [("Papule", some "Acne"), ("Pustule", some "Acne"), ("Nodule", some "Acne"),
   ("Cyst", some "Acne"),
   ("Comedo", some "Blackheads"),
   ("Dome-shaped", some "Bumps"), ("Acuminate", some "Bumps"),
   ("Umbilicated", some "Bumps"),
   ("Brown(Hyperpigmentation)", some "Dark Spots"),
   ("Pigmented", some "Dark Spots"),
   ("Poikiloderma", some "Dark Spots"),
   ("Erythema", some "Redness"), ("Salmon", some "Redness"),
   ("Telangiectasia", some "Broken Capillaries"),
   ("Purpura/Petechiae", some "Bruising/Discoloration"),
   ("Purple", some "Bruising/Discoloration"),
   ("Scale", some "Dryness/Flaking"), ("Xerosis", some "Dryness/Flaking"),
   ("Fissure", some "Dryness/Flaking"),
   ("Plaque", some "Texture/Roughness"), ("Patch", some "Texture/Roughness"),
   ("Lichenification", some "Texture/Roughness"),
   ("Sclerosis", some "Texture/Roughness"),
   ("Erosion", some "Wound/Barrier Damage"),
   ("Ulcer", some "Wound/Barrier Damage"),
   ("Friable", some "Wound/Barrier Damage"),
   ("Exudate", some "Oozing/Crusting"), ("Crust", some "Oozing/Crusting"),
   ("Scar", some "Scarring"), ("Atrophy", some "Fine Lines/Wrinkles"),
   ("Vesicle", some "Blistering"), ("Bulla", some "Blistering"),
   ("White(Hypopigmentation)", some "Hypopigmentation"),
   ("Blue", some "Discoloration"), ("Black", some "Discoloration"),
   ("Gray", some "Discoloration"), ("Translucent", some "Discoloration"),
   ("Warty/Papillomatous", some "Warts/Skin Growth"),
   ("Pedunculated", some "Skin Tag"),
   ("Exophytic/Fungating", some "Abnormal Growth"),
   ("Wheal", some "Hives"),
   ("Induration", some "Inflammation/Swelling"),
   ("Abscess", some "Inflammation/Swelling"),
   ("Do not consider this image", none),
   ("Burrow", some "Abnormal Finding")]

/-- The loop body of `_agg_lesions_to_concerns_by_max`:
`concern = mapping.get(lesion_label)`; `if not concern: continue` (both the
`None` value and the empty string are falsy in Python); then
`if concern not in agg or p > agg[concern]: agg[concern] = p`. -/
def aggStep (mapping : List (String × Option String)) (agg : List (String × ℚ))
    (d : String × ℚ) : List (String × ℚ) :=
  match assocFind mapping d.1 with
  | none => agg
  | some none => agg
  | some (some concern) =>
      if concern = "" then agg
      else
        match assocFind agg concern with
        | none => assocSet agg concern d.2
        | some cur => if cur < d.2 then assocSet agg concern d.2 else agg

/-- `_agg_lesions_to_concerns_by_max(lesion_results, mapping)`: map lesion
labels to concern names and aggregate by maximum probability per concern,
starting from the empty dict `agg = {}`. -/
def aggLesionsToConcernsByMax (lesion_results : List (String × ℚ))
    (mapping : List (String × Option String)) : List (String × ℚ) :=
  lesion_results.foldl (aggStep mapping) []

/-- The `for lbl, p in agg_concern_probs.items()` loop of
`_split_other_concerns`: `if p >= high_thr` append to `other`,
`elif p >= low_thr` append to `low`, else drop.  The loop appends in
iteration order, rendered here as structural recursion. -/
def splitLoop (high_thr low_thr : ℚ) : List (String × ℚ) → List (String × ℚ) × List (String × ℚ)
  | [] => ([], [])
  | kv :: rest =>
      let acc := splitLoop high_thr low_thr rest
      if kv.2 ≥ high_thr then (kv :: acc.1, acc.2)
      else if kv.2 ≥ low_thr then (acc.1, kv :: acc.2)
      else acc

/-- `_split_other_concerns(agg_concern_probs, high_thr, low_thr)`:
threshold split followed by sorting both lists descending by probability. -/
def splitOtherConcerns (agg_concern_probs : List (String × ℚ))
    (high_thr low_thr : ℚ) : List (String × ℚ) × List (String × ℚ) :=
  let pair := splitLoop high_thr low_thr agg_concern_probs
  (sortDesc pair.1, sortDesc pair.2)

/-- One step of Python `max(skin_type_labels, key=...)`: the running best is
replaced only when the key of the new element is strictly greater. -/
def pyMaxStep (f : String → ℚ) (best x : String) : String :=
  if f x > f best then x else best

/-- `_pick_skin_type(prob_map, skin_type_labels)`.  Python
`max(skin_type_labels, key=lambda k: prob_map.get(k, 0.0))` raises
`ValueError` on an empty sequence, modelled by `Except.error`; on a
non-empty sequence it returns the first element attaining the maximum key. -/
def pickSkinType (prob_map : List (String × ℚ)) (skin_type_labels : List String) :
    Except String (String × ℚ) :=
  match skin_type_labels with
  | [] => Except.error "max() arg is an empty sequence"
  | c :: cs =>
      let best := cs.foldl (pyMaxStep (probGetD prob_map)) c
      Except.ok (best, probGetD prob_map best)

/-- A merged entry of `merge_concerns_sections`:
`{"prob": float, "source": [tag, ...]}`. -/
structure MergedEntry where
  prob : ℚ
  source : List String
deriving DecidableEq

/-- Loop body for the `other_concerns` / `low_concerns` sections of
`merge_concerns_sections`: when the label is present, take the max
probability and append the tag only if absent; otherwise create
`{"prob": p, "source": [tag]}`. -/
def mergeStep (tag : String) (merged : List (String × MergedEntry)) (d : String × ℚ) :
    List (String × MergedEntry) :=
  match assocFind merged d.1 with
  | some e =>
      assocSet merged d.1
        ⟨max e.prob d.2, if tag ∈ e.source then e.source else e.source ++ [tag]⟩
  | none => assocSet merged d.1 ⟨d.2, [tag]⟩

/-- Loop body for the first (`skin_concerns`) section of
`merge_concerns_sections`: `merged[lbl] = {"prob": p, "source": ["conditions"]}`
unconditionally overwrites. -/
def condStep (merged : List (String × MergedEntry)) (d : String × ℚ) :
    List (String × MergedEntry) :=
  assocSet merged d.1 ⟨d.2, ["conditions"]⟩

/-- `merge_concerns_sections(combined)`, with the three section lists
`combined["skin_concerns"]`, `combined["other_concerns"]`,
`combined["low_concerns"]` passed directly. -/
def merge_concerns_sections (skin_concerns other_concerns low_concerns : List (String × ℚ)) :
    List (String × MergedEntry) :=
  let m1 := skin_concerns.foldl condStep []
  let m2 := other_concerns.foldl (mergeStep "lesions") m1
  low_concerns.foldl (mergeStep "lesions-low") m2

/-- `combine_probs(values)` of `Test_Scripts/Combined_Predict.py`, with the
module-level `COMBINE_METHOD` made an explicit argument: empty list → `0.0`;
`"max"` → `max(values)`; `"avg"` → arithmetic mean; any other method falls
through to noisy-or `1 − Π(1 − p)`. -/
def combine_probs (method : String) : List ℚ → ℚ
  | [] => 0
  | v :: vs =>
      if method = "max" then vs.foldl max v
      else if method = "avg" then
        ((v :: vs).foldl (· + ·) 0) / ((v :: vs).length : ℚ)
      else 1 - ((v :: vs).foldl (fun prod p => prod * (1 - p)) 1)

/-- The `SKIN_ALIASES` table of `Test_Scripts/Combined_Predict.py`. -/
def SKIN_ALIASES : List (String × String) :=
  [("oily skin", "Oily Skin"), ("oily", "Oily Skin"),
   ("normal skin", "Normal Skin"), ("normal", "Normal Skin"),
   ("dry skin", "Dry Skin"), ("dry", "Dry Skin")]

/-- `SKIN_SET` of `Test_Scripts/Combined_Predict.py`. -/
def SKIN_SET : List String := ["Oily Skin", "Normal Skin", "Dry Skin"]

/-- `canonical_skin_name(name)`: `SKIN_ALIASES.get(name.strip().lower())`. -/
def canonical_skin_name (name : String) : Option String :=
  assocFind SKIN_ALIASES name.trim.toLower

/-- `pick_skin_type(classes, probs)` of `Test_Scripts/Combined_Predict.py`,
with the parallel lists `classes` / `probs` zipped into one list of pairs:
collect `(canonical name, prob)` for classes whose canonical name is in
`SKIN_SET`, return `None` when none, else the top of the descending sort. -/
def pick_skin_type (classes_probs : List (String × ℚ)) : Option (String × ℚ) :=
  let skin_items := classes_probs.filterMap (fun np =>
    match canonical_skin_name np.1 with
    | some canon => if canon ∈ SKIN_SET then some (canon, np.2) else none
    | none => none)
  match sortDesc skin_items with
  | [] => none
  | x :: _ => some x

/-! ### Association-list (Python dict) lemmas -/

theorem assocFind_cons {β : Type} (kv : String × β) (m : List (String × β)) (k : String) :
    assocFind (kv :: m) k = if kv.1 == k then some kv.2 else assocFind m k := by
  simp only [assocFind, List.find?_cons]
  cases h : (kv.1 == k) with
  | false => simp [h]
  | true => simp [h]

theorem assocFind_assocSet_self {β : Type} (m : List (String × β)) (k : String) (v : β) :
    assocFind (assocSet m k v) k = some v := by
  induction m with
  | nil => simp [assocSet, assocFind_cons]
  | cons kv rest ih =>
      by_cases h : kv.1 == k
      · simp [assocSet, h, assocFind_cons]
      · simp [assocSet, h, assocFind_cons, ih]

theorem assocFind_assocSet_of_ne {β : Type} (m : List (String × β)) (k k' : String) (v : β)
    (h : k' ≠ k) : assocFind (assocSet m k v) k' = assocFind m k' := by
  have hk : (k == k') = false := by
    simp only [beq_eq_false_iff_ne]
    exact fun hkk => h hkk.symm
  induction m with
  | nil => simp [assocSet, assocFind_cons, hk, assocFind]
  | cons kv rest ih =>
      by_cases hkvk : kv.1 == k
      · have hkv1 : kv.1 = k := by simpa using hkvk
        have : (kv.1 == k') = false := by
          simp only [beq_eq_false_iff_ne, hkv1]
          exact fun hkk => h hkk.symm
        simp [assocSet, hkvk, assocFind_cons, hk, this]
      · simp only [assocSet, if_neg hkvk, assocFind_cons, ih]

theorem mem_assocSet {β : Type} {kv' : String × β} {k : String} {v : β} :
    ∀ {m : List (String × β)}, kv' ∈ assocSet m k v → kv' = (k, v) ∨ kv' ∈ m := by
  intro m
  induction m with
  | nil => intro h; simpa [assocSet] using h
  | cons kv rest ih =>
      intro h
      by_cases hkvk : kv.1 == k
      · simp only [assocSet, if_pos hkvk, List.mem_cons] at h
        rcases h with h | h
        · exact Or.inl h
        · exact Or.inr (List.mem_cons_of_mem _ h)
      · simp only [assocSet, if_neg hkvk, List.mem_cons] at h
        rcases h with h | h
        · exact Or.inr (by simp [h])
        · rcases ih h with h' | h'
          · exact Or.inl h'
          · exact Or.inr (List.mem_cons_of_mem _ h')

theorem mem_of_assocFind_eq_some {β : Type} {k : String} {v : β} :
    ∀ {m : List (String × β)}, assocFind m k = some v → (k, v) ∈ m := by
  intro m
  induction m with
  | nil => intro h; simp [assocFind] at h
  | cons kv rest ih =>
      intro h
      rw [assocFind_cons] at h
      by_cases hkvk : kv.1 == k
      · rw [if_pos hkvk] at h
        have h1 : kv.1 = k := by simpa using hkvk
        have h2 : kv.2 = v := by simpa using h
        have hkv : (k, v) = kv := by rw [← h1, ← h2]
        rw [hkv]
        exact List.mem_cons_self _ _
      · rw [if_neg hkvk] at h
        exact List.mem_cons_of_mem _ (ih h)

theorem assoc_value_unique {m : List (String × ℚ)} (hnodup : (m.map Prod.fst).Nodup)
    {k : String} {a b : ℚ} (ha : (k, a) ∈ m) (hb : (k, b) ∈ m) : a = b := by
  induction m with
  | nil => simp at ha
  | cons kv rest ih =>
      have hn : kv.1 ∉ rest.map Prod.fst ∧ (rest.map Prod.fst).Nodup := by
        simpa [List.nodup_cons] using hnodup
      rcases List.mem_cons.1 ha with ha' | ha' <;> rcases List.mem_cons.1 hb with hb' | hb'
      · exact congrArg Prod.snd (ha'.trans hb'.symm)
      · exfalso
        apply hn.1
        rw [← congrArg Prod.fst ha']
        exact List.mem_map.2 ⟨(k, b), hb', rfl⟩
      · exfalso
        apply hn.1
        rw [← congrArg Prod.fst hb']
        exact List.mem_map.2 ⟨(k, a), ha', rfl⟩
      · exact ih hn.2 ha' hb'

/-! ### Sorting lemmas -/

theorem sortDesc_perm (l : List (String × ℚ)) : (sortDesc l).Perm l :=
  List.perm_insertionSort probGE l

theorem mem_sortDesc {x : String × ℚ} {l : List (String × ℚ)} :
    x ∈ sortDesc l ↔ x ∈ l :=
  (sortDesc_perm l).mem_iff

theorem sortDesc_sorted (l : List (String × ℚ)) : List.Sorted probGE (sortDesc l) :=
  List.sorted_insertionSort probGE l

/-! ### Threshold-split lemmas -/

theorem mem_splitLoop_fst (high low : ℚ) (x : String × ℚ) :
    ∀ (agg : List (String × ℚ)),
      x ∈ (splitLoop high low agg).1 ↔ x ∈ agg ∧ x.2 ≥ high := by
  intro agg
  induction agg with
  | nil => simp [splitLoop]
  | cons kv rest ih =>
      simp only [splitLoop]
      by_cases h1 : kv.2 ≥ high
      · rw [if_pos h1]
        simp only [List.mem_cons, ih]
        constructor
        · rintro (rfl | ⟨hm, hp⟩)
          · exact ⟨Or.inl rfl, h1⟩
          · exact ⟨Or.inr hm, hp⟩
        · rintro ⟨rfl | hm, hp⟩
          · exact Or.inl rfl
          · exact Or.inr ⟨hm, hp⟩
      · rw [if_neg h1]
        by_cases h2 : kv.2 ≥ low
        · rw [if_pos h2]
          simp only [ih, List.mem_cons]
          constructor
          · rintro ⟨hm, hp⟩; exact ⟨Or.inr hm, hp⟩
          · rintro ⟨rfl | hm, hp⟩
            · exact absurd hp h1
            · exact ⟨hm, hp⟩
        · rw [if_neg h2]
          simp only [ih, List.mem_cons]
          constructor
          · rintro ⟨hm, hp⟩; exact ⟨Or.inr hm, hp⟩
          · rintro ⟨rfl | hm, hp⟩
            · exact absurd hp h1
            · exact ⟨hm, hp⟩

theorem mem_splitLoop_snd (high low : ℚ) (x : String × ℚ) :
    ∀ (agg : List (String × ℚ)),
      x ∈ (splitLoop high low agg).2 ↔ x ∈ agg ∧ low ≤ x.2 ∧ x.2 < high := by
  intro agg
  induction agg with
  | nil => simp [splitLoop]
  | cons kv rest ih =>
      simp only [splitLoop]
      by_cases h1 : kv.2 ≥ high
      · rw [if_pos h1]
        simp only [ih, List.mem_cons]
        constructor
        · rintro ⟨hm, hp⟩; exact ⟨Or.inr hm, hp⟩
        · rintro ⟨rfl | hm, hlow, hhigh⟩
          · exact absurd h1 (not_le.2 hhigh)
          · exact ⟨hm, hlow, hhigh⟩
      · rw [if_neg h1]
        by_cases h2 : kv.2 ≥ low
        · rw [if_pos h2]
          simp only [List.mem_cons, ih]
          constructor
          · rintro (rfl | ⟨hm, hp⟩)
            · exact ⟨Or.inl rfl, h2, not_le.1 h1⟩
            · exact ⟨Or.inr hm, hp⟩
          · rintro ⟨rfl | hm, hlow, hhigh⟩
            · exact Or.inl rfl
            · exact Or.inr ⟨hm, hlow, hhigh⟩
        · rw [if_neg h2]
          simp only [ih, List.mem_cons]
          constructor
          · rintro ⟨hm, hp⟩; exact ⟨Or.inr hm, hp⟩
          · rintro ⟨rfl | hm, hlow, hhigh⟩
            · exact absurd hlow h2
            · exact ⟨hm, hlow, hhigh⟩

theorem splitLoop_snd_eq_nil (high low : ℚ) (h : high ≤ low) :
    ∀ (agg : List (String × ℚ)), (splitLoop high low agg).2 = [] := by
  intro agg
  induction agg with
  | nil => simp [splitLoop]
  | cons kv rest ih =>
      simp only [splitLoop]
      by_cases h1 : kv.2 ≥ high
      · rw [if_pos h1]; exact ih
      · rw [if_neg h1]
        have h2 : ¬ kv.2 ≥ low := fun hlow => h1 (le_trans h hlow)
        rw [if_neg h2]; exact ih

theorem mem_splitOtherConcerns_fst (agg : List (String × ℚ)) (high low : ℚ) (x : String × ℚ) :
    x ∈ (splitOtherConcerns agg high low).1 ↔ x ∈ agg ∧ x.2 ≥ high := by
  rw [splitOtherConcerns]
  simp only [mem_sortDesc]
  exact mem_splitLoop_fst high low x agg

theorem mem_splitOtherConcerns_snd (agg : List (String × ℚ)) (high low : ℚ) (x : String × ℚ) :
    x ∈ (splitOtherConcerns agg high low).2 ↔ x ∈ agg ∧ low ≤ x.2 ∧ x.2 < high := by
  rw [splitOtherConcerns]
  simp only [mem_sortDesc]
  exact mem_splitLoop_snd high low x agg

/-! ### Python `max(..., key=f)` fold lemmas -/

/-- The fold of `pyMaxStep` starting from `best` lands on the first element of
`best :: l` attaining the maximum key: everything strictly before it has a
strictly smaller key, everything after it has a key no larger. -/
theorem foldl_pyMaxStep_split (f : String → ℚ) (l : List String) :
    ∀ (best : String),
      ∃ l1 l2, best :: l = l1 ++ (l.foldl (pyMaxStep f) best) :: l2
        ∧ (∀ x ∈ l1, f x < f (l.foldl (pyMaxStep f) best))
        ∧ (∀ x ∈ l2, f x ≤ f (l.foldl (pyMaxStep f) best)) := by
  induction l with
  | nil =>
      intro best
      exact ⟨[], [], rfl, by simp, by simp⟩
  | cons x xs ih =>
      intro best
      by_cases hx : f x > f best
      · have hbx : pyMaxStep f best x = x := by simp [pyMaxStep, hx]
        obtain ⟨l1, l2, hdec, hlt, hle⟩ := ih x
        have hfold : (x :: xs).foldl (pyMaxStep f) best = xs.foldl (pyMaxStep f) x := by
          simp [List.foldl_cons, hbx]
        rw [hfold]
        have hfr : f best < f (xs.foldl (pyMaxStep f) x) := by
          cases l1 with
          | nil =>
              have hx_eq : x = xs.foldl (pyMaxStep f) x := by
                have := hdec
                simp only [List.nil_append] at this
                exact (List.cons.injEq _ _ _ _ ▸ this).1
              rw [← hx_eq]
              exact hx
          | cons z l1' =>
              have hz : z = x := by
                have := hdec
                simp only [List.cons_append] at this
                exact ((List.cons.injEq _ _ _ _ ▸ this).1).symm
              have hxmem : x ∈ z :: l1' := by rw [hz]; exact List.mem_cons_self _ _
              exact lt_trans hx (hlt x hxmem)
        refine ⟨best :: l1, l2, ?_, ?_, hle⟩
        · rw [List.cons_append, ← hdec]
        · intro y hy
          rcases List.mem_cons.1 hy with rfl | hy'
          · exact hfr
          · exact hlt y hy'
      · have hbx : pyMaxStep f best x = best := by simp [pyMaxStep, hx]
        obtain ⟨l1, l2, hdec, hlt, hle⟩ := ih best
        have hfold : (x :: xs).foldl (pyMaxStep f) best = xs.foldl (pyMaxStep f) best := by
          simp [List.foldl_cons, hbx]
        rw [hfold]
        have hxle : f x ≤ f best := le_of_not_lt hx
        cases l1 with
        | nil =>
            have hpair : best = xs.foldl (pyMaxStep f) best ∧ xs = l2 := by
              have := hdec
              simp only [List.nil_append] at this
              exact ⟨(List.cons.injEq _ _ _ _ ▸ this).1, (List.cons.injEq _ _ _ _ ▸ this).2⟩
            refine ⟨[], x :: xs, ?_, by simp, ?_⟩
            · rw [List.nil_append, ← hpair.1]
            · intro y hy
              rcases List.mem_cons.1 hy with rfl | hy'
              · rw [← hpair.1]; exact hxle
              · rw [← hpair.2] at hle
                exact hle y hy'
        | cons z l1' =>
            have hz : z = best := by
              have := hdec
              simp only [List.cons_append] at this
              exact ((List.cons.injEq _ _ _ _ ▸ this).1).symm
            have hxs : xs = l1' ++ (xs.foldl (pyMaxStep f) best) :: l2 := by
              have := hdec
              simp only [List.cons_append] at this
              exact (List.cons.injEq _ _ _ _ ▸ this).2
            have hbestlt : f best < f (xs.foldl (pyMaxStep f) best) := by
              have : best ∈ z :: l1' := by rw [hz]; exact List.mem_cons_self _ _
              exact hlt best this
            refine ⟨best :: x :: l1', l2, ?_, ?_, hle⟩
            · rw [List.cons_append, List.cons_append, ← hxs]
            · intro y hy
              rcases List.mem_cons.1 hy with rfl | hy'
              · exact hbestlt
              · rcases List.mem_cons.1 hy' with rfl | hy''
                · exact lt_of_le_of_lt hxle hbestlt
                · refine hlt y ?_
                  rw [hz]
                  exact List.mem_cons_of_mem _ hy''

/-- When no element of the list has a strictly larger key than the start,
the `pyMaxStep` fold keeps the start. -/
theorem foldl_pyMaxStep_of_le (f : String → ℚ) (l : List String) :
    ∀ (best : String), (∀ x ∈ l, f x ≤ f best) → l.foldl (pyMaxStep f) best = best := by
  induction l with
  | nil => intro best _; rfl
  | cons x xs ih =>
      intro best h
      have hx : ¬ f x > f best := not_lt.2 (h x (List.mem_cons_self _ _))
      have hbx : pyMaxStep f best x = best := by simp [pyMaxStep, hx]
      simp only [List.foldl_cons, hbx]
      exact ih best (fun y hy => h y (List.mem_cons_of_mem _ hy))

theorem probGetD_nil (k : String) : probGetD [] k = 0 := rfl

/-! ### Section-merge lemmas -/

/-- Entries created or updated by the merge loops have duplicate-free source
tags: the invariant preserved by `mergeStep`. -/
theorem source_nodup_foldl_mergeStep (tag : String) (l : List (String × ℚ)) :
    ∀ (m : List (String × MergedEntry)),
      (∀ kv ∈ m, kv.2.source.Nodup) →
      ∀ kv ∈ l.foldl (mergeStep tag) m, kv.2.source.Nodup := by
  induction l with
  | nil => intro m hm; simpa using hm
  | cons d rest ih =>
      intro m hm
      simp only [List.foldl_cons]
      apply ih
      intro kv hkv
      unfold mergeStep at hkv
      cases hfind : assocFind m d.1 with
      | none =>
          rw [hfind] at hkv
          rcases mem_assocSet hkv with rfl | h
          · simp
          · exact hm _ h
      | some e =>
          rw [hfind] at hkv
          have hnod : e.source.Nodup := hm _ (mem_of_assocFind_eq_some hfind)
          rcases mem_assocSet hkv with rfl | h
          · by_cases htag : tag ∈ e.source
            · simpa [htag] using hnod
            · simp only [if_neg htag]
              rw [List.nodup_append]
              refine ⟨hnod, List.nodup_singleton _, fun x hx hx' => ?_⟩
              have hxt : x = tag := by simpa using hx'
              exact htag (hxt ▸ hx)
          · exact hm _ h

/-- The first (`conditions`) loop only ever writes the singleton source list. -/
theorem source_nodup_foldl_condStep (l : List (String × ℚ)) :
    ∀ (m : List (String × MergedEntry)),
      (∀ kv ∈ m, kv.2.source.Nodup) →
      ∀ kv ∈ l.foldl condStep m, kv.2.source.Nodup := by
  induction l with
  | nil => intro m hm; simpa using hm
  | cons d rest ih =>
      intro m hm
      simp only [List.foldl_cons]
      apply ih
      intro kv hkv
      rcases mem_assocSet hkv with rfl | h
      · simp
      · exact hm _ h

/-! ### Aggregation (`combine_probs`) lemmas -/

theorem foldl_oneMinus_nonneg (l : List ℚ) :
    ∀ (start : ℚ), 0 ≤ start → (∀ q ∈ l, q ≤ 1) →
      0 ≤ l.foldl (fun prod p => prod * (1 - p)) start := by
  induction l with
  | nil => intro start h _; simpa using h
  | cons q qs ih =>
      intro start hstart hle
      simp only [List.foldl_cons]
      refine ih _ ?_ (fun x hx => hle x (List.mem_cons_of_mem _ hx))
      have hq : q ≤ 1 := hle q (List.mem_cons_self _ _)
      have : (0:ℚ) ≤ 1 - q := by linarith
      exact mul_nonneg hstart this

/-! ### Claim theorems -/

/-- C1: mapping the raw lesion predictions `Papule ↦ 0.5`, `Pustule ↦ 0.2`,
`Comedo ↦ 0.1` through `LESION_TO_CONCERN` with max-aggregation yields
`{Acne ↦ 0.5, Blackheads ↦ 0.1}`, and tiering with `high_thr = 0.30`,
`low_thr = 0.15` yields `other = [(Acne, 0.5)]` and `low = []` (Blackheads at
`0.1` is dropped). -/
theorem C1_lesion_pipeline_example :
    aggLesionsToConcernsByMax
        [("Papule", mkRat 1 2), ("Pustule", mkRat 1 5), ("Comedo", mkRat 1 10)]
        LESION_TO_CONCERN
      = [("Acne", mkRat 1 2), ("Blackheads", mkRat 1 10)]
    ∧ splitOtherConcerns [("Acne", mkRat 1 2), ("Blackheads", mkRat 1 10)]
        (mkRat 3 10) (mkRat 3 20)
      = ([("Acne", mkRat 1 2)], []) := by
  constructor
  · decide
  · decide

/-- C2: for any aggregated concern map and thresholds with
`low_thr ≤ high_thr`, `_split_other_concerns` puts an entry in the High list
exactly when its probability is `≥ high_thr`, in the Low list exactly when
`low_thr ≤ p < high_thr` (inclusive-low convention), drops it otherwise, and
both returned lists are sorted descending by probability. -/
theorem C2_tier_classifier (agg : List (String × ℚ)) (high_thr low_thr : ℚ)
    (h : low_thr ≤ high_thr) (lbl : String) (p : ℚ) :
    ((lbl, p) ∈ (splitOtherConcerns agg high_thr low_thr).1 ↔ (lbl, p) ∈ agg ∧ p ≥ high_thr)
    ∧ ((lbl, p) ∈ (splitOtherConcerns agg high_thr low_thr).2 ↔
        (lbl, p) ∈ agg ∧ low_thr ≤ p ∧ p < high_thr)
    ∧ List.Sorted probGE (splitOtherConcerns agg high_thr low_thr).1
    ∧ List.Sorted probGE (splitOtherConcerns agg high_thr low_thr).2 := by
  refine ⟨mem_splitOtherConcerns_fst agg high_thr low_thr (lbl, p),
          mem_splitOtherConcerns_snd agg high_thr low_thr (lbl, p), ?_, ?_⟩
  · exact sortDesc_sorted _
  · exact sortDesc_sorted _

theorem C2_witness :
    (mkRat 3 20 ≤ mkRat 3 10)
    ∧ ((("Acne", mkRat 1 2) ∈
          (splitOtherConcerns [("Acne", mkRat 1 2)] (mkRat 3 10) (mkRat 3 20)).1 ↔
            ("Acne", mkRat 1 2) ∈ [("Acne", mkRat 1 2)] ∧ mkRat 1 2 ≥ mkRat 3 10)
       ∧ (("Acne", mkRat 1 2) ∈
            (splitOtherConcerns [("Acne", mkRat 1 2)] (mkRat 3 10) (mkRat 3 20)).2 ↔
              ("Acne", mkRat 1 2) ∈ [("Acne", mkRat 1 2)]
                ∧ mkRat 3 20 ≤ mkRat 1 2 ∧ mkRat 1 2 < mkRat 3 10)
       ∧ List.Sorted probGE (splitOtherConcerns [("Acne", mkRat 1 2)] (mkRat 3 10) (mkRat 3 20)).1
       ∧ List.Sorted probGE (splitOtherConcerns [("Acne", mkRat 1 2)] (mkRat 3 10) (mkRat 3 20)).2) :=
  ⟨by decide, C2_tier_classifier [("Acne", mkRat 1 2)] (mkRat 3 10) (mkRat 3 20)
      (by decide) "Acne" (mkRat 1 2)⟩

/-- C3 counterexample: in the first (`conditions`) section the merge does
not take the maximum of the existing and new probability for a repeated
label — it unconditionally overwrites.  With the conditions section
`[(Acne, 0.5), (Acne, 0.3)]` the stored probability is `0.3`, not
`max 0.5 0.3 = 0.5` as the claim requires. -/
theorem C3_counterexample :
    assocFind (merge_concerns_sections [("Acne", mkRat 1 2), ("Acne", mkRat 3 10)] [] []) "Acne"
      = some ⟨mkRat 3 10, ["conditions"]⟩
    ∧ ¬ (mkRat 3 10 = max (mkRat 1 2) (mkRat 3 10)) := by
  constructor
  · decide
  · decide

/-- C3 (amended): the claimed per-item rule holds for the `lesions` and
`lesions-low` loops (`mergeStep`): an unseen label creates
`{prob, sources = [tag]}`, a seen label gets the max probability with the tag
appended only if absent, and other labels are untouched; the first
(`conditions`) loop instead unconditionally overwrites its label's entry
with `{prob, sources = ["conditions"]}`.  Moreover every entry of the final
merged map has a duplicate-free source list. -/
theorem C3_section_merge (merged : List (String × MergedEntry)) (tag : String)
    (d : String × ℚ) :
    (assocFind merged d.1 = none →
      assocFind (mergeStep tag merged d) d.1 = some ⟨d.2, [tag]⟩)
    ∧ (∀ e, assocFind merged d.1 = some e →
        assocFind (mergeStep tag merged d) d.1 =
          some ⟨max e.prob d.2, if tag ∈ e.source then e.source else e.source ++ [tag]⟩)
    ∧ (∀ k, k ≠ d.1 → assocFind (mergeStep tag merged d) k = assocFind merged k)
    ∧ (∀ k, assocFind (condStep merged d) d.1 = some ⟨d.2, ["conditions"]⟩
        ∧ (k ≠ d.1 → assocFind (condStep merged d) k = assocFind merged k))
    ∧ (∀ sc oc lc : List (String × ℚ),
        ∀ kv ∈ merge_concerns_sections sc oc lc, kv.2.source.Nodup) := by
  refine ⟨?_, ?_, ?_, ?_, ?_⟩
  · intro hnone
    unfold mergeStep
    rw [hnone]
    exact assocFind_assocSet_self _ _ _
  · intro e hsome
    unfold mergeStep
    rw [hsome]
    exact assocFind_assocSet_self _ _ _
  · intro k hk
    unfold mergeStep
    cases hfind : assocFind merged d.1 with
    | none => exact assocFind_assocSet_of_ne _ _ _ _ hk
    | some e => exact assocFind_assocSet_of_ne _ _ _ _ hk
  · intro k
    exact ⟨assocFind_assocSet_self _ _ _, fun hk => assocFind_assocSet_of_ne _ _ _ _ hk⟩
  · intro sc oc lc kv hkv
    have h1 : ∀ kv ∈ sc.foldl condStep [], kv.2.source.Nodup :=
      source_nodup_foldl_condStep sc [] (by simp)
    have h2 : ∀ kv ∈ oc.foldl (mergeStep "lesions") (sc.foldl condStep []),
        kv.2.source.Nodup :=
      source_nodup_foldl_mergeStep "lesions" oc _ h1
    exact source_nodup_foldl_mergeStep "lesions-low" lc _ h2 kv hkv

theorem C3_witness :
    assocFind (mergeStep "lesions" [] ("Acne", mkRat 1 2)) "Acne"
      = some ⟨mkRat 1 2, ["lesions"]⟩ :=
  (C3_section_merge [] "lesions" ("Acne", mkRat 1 2)).1 (by decide)

/-- C4 counterexample: the third (`lesions-low`) section does contribute its
tag at the claimed input, because the tag-append is conditioned only on the
tag being absent, so the result is not
`{Acne ↦ {prob 0.6, sources [conditions, lesions]}}`. -/
theorem C4_counterexample :
    ¬ (merge_concerns_sections [("Acne", mkRat 1 2)] [("Acne", mkRat 3 5)] [("Acne", mkRat 3 5)]
        = [("Acne", ⟨mkRat 3 5, ["conditions", "lesions"]⟩)]) := by
  decide

/-- C4 (amended): merging the sections
`[(conditions, [(Acne, 0.5)]), (lesions, [(Acne, 0.6)]), (lesions-low, [(Acne, 0.6)])]`
produces exactly `{Acne ↦ {prob 0.6, sources [conditions, lesions, lesions-low]}}`:
the third section appends its tag as well, since the append is conditioned
only on the tag's absence from the source list. -/
theorem C4_merge_ordering_example :
    merge_concerns_sections [("Acne", mkRat 1 2)] [("Acne", mkRat 3 5)] [("Acne", mkRat 3 5)]
      = [("Acne", ⟨mkRat 3 5, ["conditions", "lesions", "lesions-low"]⟩)] := by
  decide

/-- C5 counterexample: with inverted thresholds (`high_thr = 0.15`,
`low_thr = 0.30`, so `low_threshold > high_threshold`) the code raises no
configuration error and silently produces a tiering at call time: the
concern at probability `0.2`, strictly below `low_threshold`, lands in the
High list. -/
theorem C5_counterexample :
    splitOtherConcerns [("A", mkRat 1 5)] (mkRat 3 20) (mkRat 3 10)
      = ([("A", mkRat 1 5)], [])
    ∧ mkRat 1 5 < mkRat 3 10 := by
  constructor
  · decide
  · decide

/-- C5 (amended): the code never validates the thresholds; with
`high_thr ≤ low_thr` the call still succeeds, classifying every entry with
`p ≥ high_thr` as High while the Low list is always empty. -/
theorem C5_no_threshold_validation (agg : List (String × ℚ)) (high_thr low_thr : ℚ)
    (h : high_thr ≤ low_thr) :
    (splitOtherConcerns agg high_thr low_thr).2 = []
    ∧ ∀ x : String × ℚ,
        x ∈ (splitOtherConcerns agg high_thr low_thr).1 ↔ x ∈ agg ∧ x.2 ≥ high_thr := by
  constructor
  · rw [splitOtherConcerns]
    simp only [splitLoop_snd_eq_nil high_thr low_thr h agg]
    rfl
  · intro x
    exact mem_splitOtherConcerns_fst agg high_thr low_thr x

theorem C5_witness :
    (mkRat 3 20 ≤ mkRat 3 10)
    ∧ ((splitOtherConcerns [("A", mkRat 1 5)] (mkRat 3 20) (mkRat 3 10)).2 = []
       ∧ ∀ x : String × ℚ,
           x ∈ (splitOtherConcerns [("A", mkRat 1 5)] (mkRat 3 20) (mkRat 3 10)).1 ↔
             x ∈ [("A", mkRat 1 5)] ∧ x.2 ≥ mkRat 3 20) :=
  ⟨by decide, C5_no_threshold_validation [("A", mkRat 1 5)] (mkRat 3 20) (mkRat 3 10) (by decide)⟩

/-- C6 counterexample: `_pick_skin_type` does not return `None` on the empty
cases — with an empty candidate list Python's `max` raises `ValueError`
(modelled as `Except.error`), and with an empty prediction map it returns
the first candidate with probability `0.0` rather than `None`. -/
theorem C6_counterexample :
    pickSkinType [("Oily Skin", mkRat 1 2)] [] = Except.error "max() arg is an empty sequence"
    ∧ pickSkinType [] ["Oily Skin", "Dry Skin", "Normal Skin"] = Except.ok ("Oily Skin", 0) :=
  ⟨rfl, rfl⟩

/-- C6 (amended): `_pick_skin_type` raises `ValueError` on an empty candidate
list and returns the first candidate with probability `0.0` on an empty
prediction map; only the `Test_Scripts` `pick_skin_type` returns `None` on an
empty input (no class canonicalizes to a skin type). -/
theorem C6_empty_inputs :
    (∀ m : List (String × ℚ), pickSkinType m [] = Except.error "max() arg is an empty sequence")
    ∧ (∀ (c : String) (cs : List String), pickSkinType [] (c :: cs) = Except.ok (c, 0))
    ∧ pick_skin_type [] = none := by
  refine ⟨fun m => rfl, ?_, rfl⟩
  intro c cs
  have hfold : cs.foldl (pyMaxStep (probGetD [])) c = c :=
    foldl_pyMaxStep_of_le (probGetD []) cs c
      (fun x _ => by rw [probGetD_nil, probGetD_nil])
  show Except.ok (cs.foldl (pyMaxStep (probGetD [])) c,
        probGetD [] (cs.foldl (pyMaxStep (probGetD [])) c)) = Except.ok (c, 0)
  rw [hfold, probGetD_nil]

/-- C7 counterexample: under the `avg` combine method, appending one more
in-range contributor can strictly decrease the aggregate:
`avg [0.5, 0] = 0.25 < 0.5 = avg [0.5]`. -/
theorem C7_counterexample :
    combine_probs "avg" ([mkRat 1 2] ++ [0]) < combine_probs "avg" [mkRat 1 2]
    ∧ ∀ q ∈ ([mkRat 1 2] ++ [0] : List ℚ), 0 ≤ q ∧ q ≤ 1 := by
  constructor
  · simp [combine_probs]
    norm_num
  · decide

/-- C7 (amended): for contributor probabilities in `[0, 1]`, appending one
more contributor never decreases the aggregate under the `max` and
`noisy_or` combine methods; under `avg` it can decrease (see the
counterexample), so the monotonicity claim holds only for `max` and
`noisy_or`. -/
theorem C7_monotone_max_noisy_or (values : List ℚ) (p : ℚ)
    (hv : ∀ q ∈ values, 0 ≤ q ∧ q ≤ 1) (hp : 0 ≤ p ∧ p ≤ 1) :
    combine_probs "max" values ≤ combine_probs "max" (values ++ [p])
    ∧ combine_probs "noisy_or" values ≤ combine_probs "noisy_or" (values ++ [p]) := by
  cases values with
  | nil =>
      constructor
      · show combine_probs "max" [] ≤ combine_probs "max" [p]
        simp only [combine_probs]
        norm_num
        exact hp.1
      · show combine_probs "noisy_or" [] ≤ combine_probs "noisy_or" [p]
        simp only [combine_probs]
        norm_num
        linarith [hp.1]
  | cons v vs =>
      constructor
      · show combine_probs "max" (v :: vs) ≤ combine_probs "max" ((v :: vs) ++ [p])
        rw [List.cons_append]
        simp only [combine_probs, if_pos rfl]
        rw [List.foldl_append]
        exact le_max_left _ _
      · show combine_probs "noisy_or" (v :: vs) ≤ combine_probs "noisy_or" ((v :: vs) ++ [p])
        have happ : (v :: vs) ++ [p] = v :: (vs ++ [p]) := rfl
        rw [happ]
        simp only [combine_probs]
        have h1 : ¬ (("noisy_or" : String) = "max") := by decide
        have h2 : ¬ (("noisy_or" : String) = "avg") := by decide
        simp only [if_neg h1, if_neg h2]
        have happ2 : (v :: (vs ++ [p])) = (v :: vs) ++ [p] := rfl
        rw [happ2, List.foldl_append]
        have hP : 0 ≤ (v :: vs).foldl (fun prod p => prod * (1 - p)) 1 :=
          foldl_oneMinus_nonneg (v :: vs) 1 (by norm_num) (fun q hq => (hv q hq).2)
        have hstep : List.foldl (fun prod p => prod * (1 - p))
            ((v :: vs).foldl (fun prod p => prod * (1 - p)) 1) [p]
            = ((v :: vs).foldl (fun prod p => prod * (1 - p)) 1) * (1 - p) := by
          simp only [List.foldl_cons, List.foldl_nil]
        rw [hstep]
        have hmul : ((v :: vs).foldl (fun prod p => prod * (1 - p)) 1) * (1 - p)
            ≤ (v :: vs).foldl (fun prod p => prod * (1 - p)) 1 :=
          mul_le_of_le_one_right hP (by linarith [hp.1])
        linarith

theorem C7_witness :
    ((∀ q ∈ ([mkRat 1 2] : List ℚ), 0 ≤ q ∧ q ≤ 1) ∧ (0 ≤ mkRat 1 3 ∧ mkRat 1 3 ≤ 1))
    ∧ (combine_probs "max" [mkRat 1 2] ≤ combine_probs "max" ([mkRat 1 2] ++ [mkRat 1 3])
       ∧ combine_probs "noisy_or" [mkRat 1 2]
           ≤ combine_probs "noisy_or" ([mkRat 1 2] ++ [mkRat 1 3])) :=
  ⟨⟨by decide, by decide⟩,
   C7_monotone_max_noisy_or [mkRat 1 2] (mkRat 1 3) (by decide) (by decide)⟩

/-- C8: `_pick_skin_type` is a stable argmax over the candidate list: on a
non-empty candidate list it returns the first candidate attaining the
maximum looked-up probability (strictly larger than all earlier candidates,
at least as large as all later ones), with the probability taken from the
prediction map with default `0.0`; in particular, candidates
`[Oily Skin, Dry Skin, Normal Skin]` with predictions
`{Oily Skin ↦ 0.40, Dry Skin ↦ 0.40, Normal Skin ↦ 0.10}` select
`(Oily Skin, 0.40)`. -/
theorem C8_skin_type_argmax :
    (∀ (m : List (String × ℚ)) (c : String) (cs : List String),
      ∃ r l1 l2,
        pickSkinType m (c :: cs) = Except.ok (r, probGetD m r)
        ∧ c :: cs = l1 ++ r :: l2
        ∧ (∀ x ∈ l1, probGetD m x < probGetD m r)
        ∧ (∀ x ∈ l2, probGetD m x ≤ probGetD m r))
    ∧ pickSkinType
        [("Oily Skin", mkRat 2 5), ("Dry Skin", mkRat 2 5), ("Normal Skin", mkRat 1 10)]
        ["Oily Skin", "Dry Skin", "Normal Skin"] = Except.ok ("Oily Skin", mkRat 2 5) := by
  constructor
  · intro m c cs
    obtain ⟨l1, l2, hdec, hlt, hle⟩ := foldl_pyMaxStep_split (probGetD m) cs c
    exact ⟨cs.foldl (pyMaxStep (probGetD m)) c, l1, l2, rfl, hdec, hlt, hle⟩
  · rfl

/-- C9: on a non-empty candidate list `_pick_skin_type` always returns a
selection (never an error or `None`): the label is one of the candidates and
the probability is the map's entry for it with default `0.0`; when no
candidate occurs in the prediction map at all, it returns the first
candidate with probability `0.0` rather than the overall top prediction. -/
theorem C9_nonempty_candidates_total :
    (∀ (m : List (String × ℚ)) (c : String) (cs : List String),
      ∃ r, pickSkinType m (c :: cs) = Except.ok (r, probGetD m r) ∧ r ∈ c :: cs)
    ∧ (∀ (m : List (String × ℚ)) (c : String) (cs : List String),
        (∀ x ∈ c :: cs, assocFind m x = none) →
        pickSkinType m (c :: cs) = Except.ok (c, 0)) := by
  constructor
  · intro m c cs
    obtain ⟨l1, l2, hdec, _, _⟩ := foldl_pyMaxStep_split (probGetD m) cs c
    refine ⟨cs.foldl (pyMaxStep (probGetD m)) c, rfl, ?_⟩
    rw [hdec]
    exact List.mem_append.2 (Or.inr (List.mem_cons_self _ _))
  · intro m c cs h
    have hzero : ∀ x ∈ c :: cs, probGetD m x = 0 := fun x hx => by
      simp [probGetD, h x hx]
    have hfold : cs.foldl (pyMaxStep (probGetD m)) c = c :=
      foldl_pyMaxStep_of_le (probGetD m) cs c (fun x hx => by
        rw [hzero x (List.mem_cons_of_mem _ hx), hzero c (List.mem_cons_self _ _)])
    show Except.ok (cs.foldl (pyMaxStep (probGetD m)) c,
          probGetD m (cs.foldl (pyMaxStep (probGetD m)) c)) = Except.ok (c, 0)
    rw [hfold, hzero c (List.mem_cons_self _ _)]

theorem C9_witness :
    (∀ x ∈ (["Oily Skin", "Dry Skin"] : List String),
        assocFind [("Acne", mkRat 1 2)] x = none)
    ∧ pickSkinType [("Acne", mkRat 1 2)] ["Oily Skin", "Dry Skin"]
        = Except.ok ("Oily Skin", 0) :=
  ⟨by decide,
   C9_nonempty_candidates_total.2 [("Acne", mkRat 1 2)] "Oily Skin" ["Dry Skin"] (by decide)⟩

/-- C10: for a concern map with distinct labels and `low_thr ≤ high_thr`,
`_split_other_concerns` partitions the input: both output lists only contain
input pairs (probabilities unchanged); an entry with `p ≥ high_thr` is in the
High list and its label is absent from the Low list; an entry with
`low_thr ≤ p < high_thr` is in the Low list and absent from the High list;
an entry with `p < low_thr` appears in neither. -/
theorem C10_split_partition (agg : List (String × ℚ)) (high_thr low_thr : ℚ)
    (h : low_thr ≤ high_thr) (hnodup : (agg.map Prod.fst).Nodup) :
    (∀ x ∈ (splitOtherConcerns agg high_thr low_thr).1, x ∈ agg)
    ∧ (∀ x ∈ (splitOtherConcerns agg high_thr low_thr).2, x ∈ agg)
    ∧ (∀ lbl p, (lbl, p) ∈ agg →
        (high_thr ≤ p →
          (lbl, p) ∈ (splitOtherConcerns agg high_thr low_thr).1
          ∧ lbl ∉ ((splitOtherConcerns agg high_thr low_thr).2).map Prod.fst)
        ∧ (low_thr ≤ p → p < high_thr →
          (lbl, p) ∈ (splitOtherConcerns agg high_thr low_thr).2
          ∧ lbl ∉ ((splitOtherConcerns agg high_thr low_thr).1).map Prod.fst)
        ∧ (p < low_thr →
          lbl ∉ ((splitOtherConcerns agg high_thr low_thr).1).map Prod.fst
          ∧ lbl ∉ ((splitOtherConcerns agg high_thr low_thr).2).map Prod.fst)) := by
  refine ⟨fun x hx => ((mem_splitOtherConcerns_fst agg high_thr low_thr x).1 hx).1,
          fun x hx => ((mem_splitOtherConcerns_snd agg high_thr low_thr x).1 hx).1, ?_⟩
  intro lbl p hmem
  refine ⟨fun hp => ⟨?_, ?_⟩, fun hlow hhigh => ⟨?_, ?_⟩, fun hdrop => ⟨?_, ?_⟩⟩
  · exact (mem_splitOtherConcerns_fst agg high_thr low_thr (lbl, p)).2 ⟨hmem, hp⟩
  · intro hin
    obtain ⟨x, hx, hx1⟩ := List.mem_map.1 hin
    obtain ⟨hxagg, _, hxhigh⟩ := (mem_splitOtherConcerns_snd agg high_thr low_thr x).1 hx
    have hxagg' : (lbl, x.2) ∈ agg := by rw [← hx1]; exact hxagg
    have hxeq : x.2 = p := assoc_value_unique hnodup hxagg' hmem
    rw [hxeq] at hxhigh
    exact absurd hp (not_le.2 hxhigh)
  · exact (mem_splitOtherConcerns_snd agg high_thr low_thr (lbl, p)).2 ⟨hmem, hlow, hhigh⟩
  · intro hin
    obtain ⟨x, hx, hx1⟩ := List.mem_map.1 hin
    obtain ⟨hxagg, hxge⟩ := (mem_splitOtherConcerns_fst agg high_thr low_thr x).1 hx
    have hxagg' : (lbl, x.2) ∈ agg := by rw [← hx1]; exact hxagg
    have hxeq : x.2 = p := assoc_value_unique hnodup hxagg' hmem
    rw [hxeq] at hxge
    exact absurd hxge (not_le.2 hhigh)
  · intro hin
    obtain ⟨x, hx, hx1⟩ := List.mem_map.1 hin
    obtain ⟨hxagg, hxge⟩ := (mem_splitOtherConcerns_fst agg high_thr low_thr x).1 hx
    have hxagg' : (lbl, x.2) ∈ agg := by rw [← hx1]; exact hxagg
    have hxeq : x.2 = p := assoc_value_unique hnodup hxagg' hmem
    rw [hxeq] at hxge
    exact absurd hxge (not_le.2 (lt_of_lt_of_le hdrop h))
  · intro hin
    obtain ⟨x, hx, hx1⟩ := List.mem_map.1 hin
    obtain ⟨hxagg, hxlow, _⟩ := (mem_splitOtherConcerns_snd agg high_thr low_thr x).1 hx
    have hxagg' : (lbl, x.2) ∈ agg := by rw [← hx1]; exact hxagg
    have hxeq : x.2 = p := assoc_value_unique hnodup hxagg' hmem
    rw [hxeq] at hxlow
    exact absurd hxlow (not_le.2 hdrop)

theorem C10_witness :
    ((mkRat 3 20 ≤ mkRat 3 10) ∧ (([("A", mkRat 1 2)].map Prod.fst).Nodup))
    ∧ ((∀ x ∈ (splitOtherConcerns [("A", mkRat 1 2)] (mkRat 3 10) (mkRat 3 20)).1,
          x ∈ [("A", mkRat 1 2)])
       ∧ (∀ x ∈ (splitOtherConcerns [("A", mkRat 1 2)] (mkRat 3 10) (mkRat 3 20)).2,
            x ∈ [("A", mkRat 1 2)])
       ∧ (∀ lbl p, (lbl, p) ∈ [("A", mkRat 1 2)] →
           (mkRat 3 10 ≤ p →
             (lbl, p) ∈ (splitOtherConcerns [("A", mkRat 1 2)] (mkRat 3 10) (mkRat 3 20)).1
             ∧ lbl ∉ ((splitOtherConcerns [("A", mkRat 1 2)] (mkRat 3 10) (mkRat 3 20)).2).map
                 Prod.fst)
           ∧ (mkRat 3 20 ≤ p → p < mkRat 3 10 →
             (lbl, p) ∈ (splitOtherConcerns [("A", mkRat 1 2)] (mkRat 3 10) (mkRat 3 20)).2
             ∧ lbl ∉ ((splitOtherConcerns [("A", mkRat 1 2)] (mkRat 3 10) (mkRat 3 20)).1).map
                 Prod.fst)
           ∧ (p < mkRat 3 20 →
             lbl ∉ ((splitOtherConcerns [("A", mkRat 1 2)] (mkRat 3 10) (mkRat 3 20)).1).map
                 Prod.fst
             ∧ lbl ∉ ((splitOtherConcerns [("A", mkRat 1 2)] (mkRat 3 10) (mkRat 3 20)).2).map
                 Prod.fst))) :=
  ⟨⟨by decide, by decide⟩,
   C10_split_partition [("A", mkRat 1 2)] (mkRat 3 10) (mkRat 3 20) (by decide) (by decide)⟩

end Beauty
